import Mathlib

/-!
Verification of the Celfie Lock steganographic codec (src/celfie.py).

The development shallowly embeds the core of `celfie.py`: header packing
(struct.pack at encode lines 213-223 and the manual slicing at decode lines
309-322), the bit-level LSB embedding and extraction (encode lines 225-243,
decode lines 301-340), the capacity check (encode lines 229-232), the length
validation (decode lines 326-334) and the orchestration control flow of
`encode`, `decode` and `verify_image` including which failures are caught by
the `try/except` blocks and which propagate.

Bytes are modelled as `Nat` values (< 256 where it matters), byte strings as
`List Nat`, and the bit string `binary_data` built by the Python code as a
`List Nat` of 0/1 values.  Text (Python `str`) is modelled as a list of
Unicode code points; the repository's calls to `str.encode` and
`bytes.decode` with the UTF-8 codec are implemented concretely below.

The external libraries `zlib` (compress/decompress) and
`cryptography.fernet` (encrypt/decrypt) are not part of this repository;
they enter the model as an abstract `Codec` of functions, with their
round-trip behaviour taken as hypotheses where a theorem needs it, and
instantiated with concrete executable stand-ins for witnesses.
-/

namespace Celfie

/-- The `SIGNATURE = "CELFIE"` constant (celfie.py line 33), UTF-8 encoded as
in `SIGNATURE.encode` at line 214: bytes C,E,L,F,I,E. -/
def SIGNATURE_BYTES : List Nat := [67, 69, 76, 70, 73, 69]

/-- `VERSION = 1` (celfie.py line 34). -/
def VERSION : Nat := 1

/-- `HEADER_SIZE = 74` (celfie.py line 35). -/
def HEADER_SIZE : Nat := 74

/-- `DELIMITER = b'\x00\xFF\x00\xFF\x00\xFF\x00\xFF'` (celfie.py line 36). -/
def DELIMITER : List Nat := [0x00, 0xFF, 0x00, 0xFF, 0x00, 0xFF, 0x00, 0xFF]

/-- Behaviour of a `struct.pack` fixed-width `s` field: the byte string is
truncated or padded with zero bytes to exactly `n` bytes. -/
def fit (n : Nat) (bs : List Nat) : List Nat :=
  bs.take n ++ List.replicate (n - bs.length) 0

/-- Little-endian packing of an unsigned integer into `n` bytes, as done by
the `struct.pack` codes `<I` (n = 4) and `<Q` (n = 8). -/
def le_bytes : Nat → Nat → List Nat
  | 0, _ => []
  | n + 1, v => v % 256 :: le_bytes n (v / 256)

/-- Little-endian unpacking of a byte string into an unsigned integer, as
done by `struct.unpack` with `<I` / `<Q` (decode lines 319 and 322). -/
def le_unpack : List Nat → Nat
  | [] => 0
  | b :: bs => b + 256 * le_unpack bs

/-- The header built by `struct.pack("<6sI32s16sQ8s", ...)` at celfie.py
lines 215-223: signature, version, key, salt, ciphertext length, delimiter
laid out at fixed offsets, 74 bytes in total.  `fit` models the `s`-field
padding/truncation of `struct.pack`; the signature and delimiter constants
already have their exact field widths. -/
def packHeader (version : Nat) (key salt : List Nat) (dataLen : Nat) : List Nat :=
  SIGNATURE_BYTES ++ le_bytes 4 version ++ fit 32 key ++ fit 16 salt ++
    le_bytes 8 dataLen ++ DELIMITER

/-- The eight bits of one byte, most significant first, as produced by
`format(b, '08b')` (celfie.py line 227) for a byte value `b < 256`. -/
def byteToBits (b : Nat) : List Nat :=
  [b / 128 % 2, b / 64 % 2, b / 32 % 2, b / 16 % 2, b / 8 % 2, b / 4 % 2, b / 2 % 2, b % 2]

/-- `binary_data = ''.join(format(b, '08b') for b in data_to_hide)`
(celfie.py line 227): the whole byte buffer as a bit string. -/
def bytesToBits (bs : List Nat) : List Nat := bs.flatMap byteToBits

/-- The embedding loop of celfie.py lines 241-243: walk the bit string and
overwrite the least significant bit of each successive channel value with
`flat_img[i] = (flat_img[i] & 0xFE) | int(bit)`; indices past the end of the
buffer are skipped by the `if i < len(flat_img)` guard. -/
def embedBits : List Nat → List Nat → List Nat
  | flat, [] => flat
  | [], _ :: _ => []
  | v :: flat, b :: bits => ((v &&& 0xFE) ||| b) :: embedBits flat bits

/-- `int(byte, 2)` on an 8-character bit string (decode lines 307 and 340):
reassemble bits, most significant first, into a byte value. -/
def bitsToByte (bits : List Nat) : Nat := bits.foldl (fun a b => 2 * a + b) 0

/-- The byte-reassembly loops of decode lines 303-307 and 336-340: consume
the bit string eight bits at a time; a trailing group of fewer than eight
bits is dropped (the `if i + 8 <= len(...)` guard). -/
def bitsToBytes : List Nat → List Nat
  | b0 :: b1 :: b2 :: b3 :: b4 :: b5 :: b6 :: b7 :: rest =>
      bitsToByte [b0, b1, b2, b3, b4, b5, b6, b7] :: bitsToBytes rest
  | _ => []

/-- LSB extraction `str(flat_img[i] & 1) for i in range(start, start + len)`
(decode lines 302 and 334).  Python list indexing raises `IndexError` when an
index is out of range, modelled by `none`. -/
def extractBits (flat : List Nat) (start len : Nat) : Option (List Nat) :=
  if start + len ≤ flat.length then some (((flat.drop start).take len).map (· % 2))
  else none

/-- A Unicode scalar value as storable in a Python `str` that the strict
UTF-8 codec accepts: below 0x110000 and not a surrogate. -/
def ValidCP (c : Nat) : Prop := c < 0x110000 ∧ (c < 0xD800 ∨ 0xE000 ≤ c)

instance (c : Nat) : Decidable (ValidCP c) := by unfold ValidCP; infer_instance

/-- UTF-8 encoding of one code point (Python `str.encode('utf-8')`,
celfie.py line 199): 1 to 4 bytes, standard layout. -/
def utf8EncodeChar (c : Nat) : List Nat :=
  if c < 0x80 then [c]
  else if c < 0x800 then [0xC0 + c / 64, 0x80 + c % 64]
  else if c < 0x10000 then [0xE0 + c / 4096, 0x80 + c / 64 % 64, 0x80 + c % 64]
  else [0xF0 + c / 262144, 0x80 + c / 4096 % 64, 0x80 + c / 64 % 64, 0x80 + c % 64]

/-- UTF-8 encoding of a whole string of code points. -/
def utf8Encode (cs : List Nat) : List Nat := cs.flatMap utf8EncodeChar

/-- A UTF-8 continuation byte: 0x80 to 0xBF. -/
def isCont (b : Nat) : Bool := decide (0x80 ≤ b) && decide (b < 0xC0)

/-- One step of strict UTF-8 decoding: read one encoded code point from the
front of the byte stream, returning the code point and the number of
continuation bytes consumed after the lead byte.  Rejects lone continuation
bytes, the overlong lead bytes 0xC0/0xC1, overlong 3- and 4-byte forms,
surrogates and lead bytes above 0xF4, exactly as Python's strict `utf-8`
codec does. -/
def utf8DecodeOne : List Nat → Option (Nat × Nat)
  | [] => none
  | b :: rest =>
    if b < 0x80 then some (b, 0)
    else if b < 0xC2 then none
    else if b < 0xE0 then
      match rest with
      | b1 :: _ => if isCont b1 then some ((b - 0xC0) * 64 + (b1 - 0x80), 1) else none
      | [] => none
    else if b < 0xF0 then
      match rest with
      | b1 :: b2 :: _ =>
        if isCont b1 && isCont b2 && (decide (b ≠ 0xE0) || decide (0xA0 ≤ b1)) &&
            (decide (b ≠ 0xED) || decide (b1 < 0xA0)) then
          some ((b - 0xE0) * 4096 + (b1 - 0x80) * 64 + (b2 - 0x80), 2)
        else none
      | _ => none
    else if b < 0xF5 then
      match rest with
      | b1 :: b2 :: b3 :: _ =>
        if isCont b1 && isCont b2 && isCont b3 && (decide (b ≠ 0xF0) || decide (0x90 ≤ b1)) &&
            (decide (b ≠ 0xF4) || decide (b1 < 0x90)) then
          some ((b - 0xF0) * 262144 + (b1 - 0x80) * 4096 + (b2 - 0x80) * 64 + (b3 - 0x80), 3)
        else none
      | _ => none
    else none

/-- Strict UTF-8 decoding (Python `bytes.decode('utf-8')`, celfie.py line
348): decode code points one at a time; `none` models the
`UnicodeDecodeError`. -/
def utf8Decode : List Nat → Option (List Nat)
  | [] => some []
  | b :: rest =>
    match utf8DecodeOne (b :: rest) with
    | none => none
    | some (c, k) => (utf8Decode (rest.drop k)).map (fun cs => c :: cs)
termination_by l => l.length
decreasing_by simp only [List.length_drop, List.length_cons]; omega

/-- The external compression and encryption collaborators (`zlib` and
`cryptography.fernet`), which are not code of this repository.  `compress`
models `zlib.compress(-, level=9)`; `decompress` models `zlib.decompress`
with `none` for `zlib.error`; `encrypt`/`decrypt` model Fernet keyed by the
raw 32-byte key (the url-safe base64 step at celfie.py lines 204 and 343 is
a bijection between raw keys and Fernet key strings), with `none` for
`InvalidToken` or a malformed key. -/
structure Codec where
  compress : List Nat → List Nat
  decompress : List Nat → Option (List Nat)
  encrypt : List Nat → List Nat → List Nat
  decrypt : List Nat → List Nat → Option (List Nat)

/-- The code points of the literal `"\nLINK:"` spliced in by the f-string at
celfie.py line 196. -/
def LINK_TAG : List Nat := [10, 76, 73, 78, 75, 58]

/-- celfie.py lines 194-196: `full_message = message`, and when `link` is
truthy (a non-empty string) `full_message = f"{message}\nLINK:{link}"`. -/
def fullMessage (message link : List Nat) : List Nat :=
  if link = [] then message else message ++ LINK_TAG ++ link

/-- The `ValueError` raised at celfie.py line 232 when the payload does not
fit ("Message too large for this image"); the spec calls it
`CapacityExceeded`. -/
inductive EncodeError
  | capacityExceeded
deriving DecidableEq

/-- Errors that escape `decode`: `FileNotFoundError` at celfie.py line 286,
and the `IndexError` from the header-bit extraction at line 302, which sits
before the `try` block and therefore propagates. -/
inductive DecodeError
  | fileNotFound
  | indexError
deriving DecidableEq

/-- The core of `encode` (celfie.py lines 193-243) from the point where the
plaintext and the raster are in hand: build the full message, UTF-8 encode,
compress, encrypt, pack the header, serialize header plus ciphertext to
bits, check capacity (line 231: strictly-greater comparison, raising before
any pixel is touched) and embed into the flat channel buffer.  The fresh
random key and salt drawn by `secrets.token_bytes` at lines 203-205 are
explicit arguments, making the embedding deterministic. -/
def encodeRaster (c : Codec) (randomKey salt : List Nat) (width height : Nat)
    (flatImg : List Nat) (message link : List Nat) : Except EncodeError (List Nat) :=
  let messageBytes := utf8Encode (fullMessage message link)
  let compressedData := c.compress messageBytes
  let encryptedData := c.encrypt randomKey compressedData
  let header := packHeader VERSION randomKey salt encryptedData.length
  let dataToHide := header ++ encryptedData
  let binaryData := bytesToBits dataToHide
  let capacity := width * height * 3
  if binaryData.length > capacity then Except.error EncodeError.capacityExceeded
  else Except.ok (embedBits flatImg binaryData)

/-- The decrypt-decompress-decode tail of `decode` (celfie.py lines
342-348): Fernet decrypt with the key recovered from the header, zlib
decompress, UTF-8 decode; each failure is an exception caught by the
handlers at lines 353-358 and therefore collapses to `none`. -/
def unframe (c : Codec) (key ciphertext : List Nat) : Option (List Nat) :=
  match c.decrypt key ciphertext with
  | none => none
  | some compressedData =>
    match c.decompress compressedData with
    | none => none
    | some messageBytes => utf8Decode messageBytes

/-- The body of the `try` block of `decode` (celfie.py lines 309-351), given
the already-extracted 74 header bytes.  The first six bytes are compared
against the signature (an arbitrary six bytes UTF-8-decode to `"CELFIE"`
exactly when they are `SIGNATURE_BYTES`, and a decode failure lands in the
same `except` path, so both failure modes are the `else none` branch); the
version and salt fields are read at lines 319-321 but never used; the length
validation of lines 326-330 compares `data_length` against
`len(flat_img) - HEADER_SIZE * 8` and against 10,000,000; then the
ciphertext bits are extracted (an out-of-range index raising `IndexError`
inside the `try`, hence `none`) and unframed. -/
def decodeInner (c : Codec) (flatImg : List Nat) (headerBytes : List Nat) : Option (List Nat) :=
  if headerBytes.take 6 = SIGNATURE_BYTES then
    let encryptionKey := (headerBytes.drop 10).take 32
    let dataLength := le_unpack ((headerBytes.drop 58).take 8)
    let maxData := flatImg.length - HEADER_SIZE * 8
    if dataLength > maxData ∨ dataLength > 10000000 then none
    else
      match extractBits flatImg (HEADER_SIZE * 8) (dataLength * 8) with
      | none => none
      | some dataBits => unframe c encryptionKey (bitsToBytes dataBits)
  else none

/-- `decode` from the point where the flat channel buffer is in hand
(celfie.py lines 296-358).  The header-bit extraction at line 302 reads
`flat_img[i]` for every `i < HEADER_SIZE * 8` and sits before the `try`
block, so on a buffer shorter than 592 entries the `IndexError` propagates
out of `decode`; everything after it is inside the `try` and collapses to
`none` on failure. -/
def decodeRaster (c : Codec) (flatImg : List Nat) : Except DecodeError (Option (List Nat)) :=
  match extractBits flatImg 0 (HEADER_SIZE * 8) with
  | none => Except.error DecodeError.indexError
  | some headerBits => Except.ok (decodeInner c flatImg (bitsToBytes headerBits))

/-- The 74 header bytes that `decode` assembles from the first 592
low-order bits of a raster buffer (celfie.py lines 302-307). -/
def headerBytesOf (flatImg : List Nat) : List Nat :=
  bitsToBytes ((flatImg.take 592).map (· % 2))

/-- The `data_length` field that `decode` reads from the header
(celfie.py line 322). -/
def payloadLenOf (flatImg : List Nat) : Nat :=
  le_unpack (((headerBytesOf flatImg).drop 58).take 8)

/-- The `encryption_key` field that `decode` reads from the header
(celfie.py line 320). -/
def keyOf (flatImg : List Nat) : List Nat :=
  ((headerBytesOf flatImg).drop 10).take 32

/-- `decode` including its I/O boundary (celfie.py lines 285-286): a file
system maps each path to a flat channel buffer or nothing; a missing file
raises `FileNotFoundError`. -/
def decodeFile {Path : Type} (c : Codec) (fs : Path → Option (List Nat)) (p : Path) :
    Except DecodeError (Option (List Nat)) :=
  match fs p with
  | none => Except.error DecodeError.fileNotFound
  | some flatImg => decodeRaster c flatImg

/-- `verify_image` (celfie.py lines 361-375): call `decode` under a bare
`except` that catches every exception, and report whether a message was
found. -/
def verify_image {Path : Type} (c : Codec) (fs : Path → Option (List Nat)) (p : Path) : Bool :=
  match decodeFile c fs p with
  | Except.error _ => false
  | Except.ok none => false
  | Except.ok (some _) => true

/-- Executable stand-in for `zlib.compress` used to instantiate witness
statements: the identity, which satisfies the lossless round trip. -/
def toyCompress (d : List Nat) : List Nat := d

/-- Executable stand-in for `zlib.decompress`. -/
def toyDecompress (d : List Nat) : Option (List Nat) := some d

/-- Executable stand-in for Fernet encryption: prepend the key, so that
decryption genuinely depends on the key as the real cipher's does. -/
def toyEncrypt (k d : List Nat) : List Nat := k ++ d

/-- Executable stand-in for Fernet decryption: succeeds exactly when the
ciphertext carries the expected key. -/
def toyDecrypt (k ct : List Nat) : Option (List Nat) :=
  if ct.take k.length = k then some (ct.drop k.length) else none

/-- The executable codec built from the stand-ins. -/
def toyCodec : Codec :=
  { compress := toyCompress, decompress := toyDecompress,
    encrypt := toyEncrypt, decrypt := toyDecrypt }

set_option maxRecDepth 40000

/-- Little-endian packing always produces exactly the requested width. -/
theorem length_le_bytes (n v : Nat) : (le_bytes n v).length = n := by
  induction n generalizing v with
  | zero => rfl
  | succ n ih => simp [le_bytes, ih]

/-- Little-endian packing produces byte values. -/
theorem le_bytes_mem_lt (n v : Nat) : ∀ b ∈ le_bytes n v, b < 256 := by
  induction n generalizing v with
  | zero => intro b hb; simp [le_bytes] at hb
  | succ n ih =>
    intro b hb
    simp only [le_bytes, List.mem_cons] at hb
    rcases hb with h | h
    · omega
    · exact ih (v / 256) b h

/-- Unpacking inverts packing modulo the field width. -/
theorem le_unpack_le_bytes (n v : Nat) : le_unpack (le_bytes n v) = v % 2 ^ (8 * n) := by
  induction n generalizing v with
  | zero => simp [le_bytes, le_unpack, Nat.mod_one]
  | succ n ih =>
    have h2 : (2 : Nat) ^ (8 * (n + 1)) = 256 * 2 ^ (8 * n) := by ring
    rw [le_bytes, le_unpack, ih, h2, Nat.mod_mul]

/-- Unpacking inverts packing exactly when the value fits the field. -/
theorem le_unpack_le_bytes_of_lt {n v : Nat} (h : v < 2 ^ (8 * n)) :
    le_unpack (le_bytes n v) = v := by
  rw [le_unpack_le_bytes, Nat.mod_eq_of_lt h]

/-- A struct `s` field of the right length is passed through unchanged. -/
theorem fit_of_length {n : Nat} {bs : List Nat} (h : bs.length = n) : fit n bs = bs := by
  subst h; simp [fit]

/-- A struct `s` field always occupies exactly its declared width. -/
theorem length_fit (n : Nat) (bs : List Nat) : (fit n bs).length = n := by
  simp [fit]; omega

/-- The packed header is always exactly `HEADER_SIZE = 74` bytes, whatever
the argument lengths (struct.pack pads or truncates each `s` field). -/
theorem packHeader_length (v : Nat) (k s : List Nat) (n : Nat) :
    (packHeader v k s n).length = 74 := by
  simp [packHeader, SIGNATURE_BYTES, DELIMITER, length_le_bytes, length_fit]

/-- Reassembling the eight bits of a byte, most significant first, recovers
the byte. -/
theorem bitsToByte_byteToBits {b : Nat} (hb : b < 256) : bitsToByte (byteToBits b) = b := by
  simp only [byteToBits, bitsToByte, List.foldl_cons, List.foldl_nil]
  omega

/-- The bit string of a byte buffer has eight bits per byte. -/
theorem length_bytesToBits (bs : List Nat) : (bytesToBits bs).length = 8 * bs.length := by
  induction bs with
  | nil => rfl
  | cons b bs ih =>
    simp only [bytesToBits, List.flatMap_cons, List.length_append] at *
    simp [byteToBits, ih]; omega

/-- Every entry of the bit string is 0 or 1. -/
theorem bytesToBits_mem_le (bs : List Nat) : ∀ x ∈ bytesToBits bs, x ≤ 1 := by
  intro x hx
  simp only [bytesToBits, List.mem_flatMap] at hx
  rcases hx with ⟨b, -, hmem⟩
  simp only [byteToBits, List.mem_cons, List.not_mem_nil, or_false] at hmem
  have h2 : ∀ y : Nat, y % 2 ≤ 1 := fun y => Nat.lt_succ_iff.mp (Nat.mod_lt y (by omega))
  rcases hmem with h | h | h | h | h | h | h | h <;> subst h <;> exact h2 _

/-- Bit serialization distributes over concatenation of byte buffers. -/
theorem bytesToBits_append (a b : List Nat) :
    bytesToBits (a ++ b) = bytesToBits a ++ bytesToBits b := by
  simp [bytesToBits]

/-- Unfolding equation for `bitsToBytes` on a full group of eight bits. -/
theorem bitsToBytes_cons8 (b0 b1 b2 b3 b4 b5 b6 b7 : Nat) (rest : List Nat) :
    bitsToBytes (b0 :: b1 :: b2 :: b3 :: b4 :: b5 :: b6 :: b7 :: rest) =
      bitsToByte [b0, b1, b2, b3, b4, b5, b6, b7] :: bitsToBytes rest := rfl

/-- Byte-by-byte reassembly undoes bit serialization on byte buffers. -/
theorem bitsToBytes_bytesToBits {bs : List Nat} (h : ∀ b ∈ bs, b < 256) :
    bitsToBytes (bytesToBits bs) = bs := by
  induction bs with
  | nil => rfl
  | cons b bs ih =>
    have hb : b < 256 := h b (List.mem_cons_self b bs)
    rw [show bytesToBits (b :: bs) = byteToBits b ++ bytesToBits bs from
      List.flatMap_cons b bs byteToBits]
    simp only [byteToBits, List.cons_append, List.nil_append]
    rw [bitsToBytes_cons8, ← byteToBits, bitsToByte_byteToBits hb,
      ih fun x hx => h x (List.mem_cons_of_mem b hx)]

/-- Embedding never changes the length of the channel buffer. -/
theorem length_embedBits (flat bits : List Nat) :
    (embedBits flat bits).length = flat.length := by
  induction flat generalizing bits with
  | nil => cases bits <;> rfl
  | cons v flat ih => cases bits with
    | nil => rfl
    | cons b bits => simp [embedBits, ih]

/-- The LSB write `(v & 0xFE) | b` on a byte value with a single bit. -/
theorem lsb_write_eq : ∀ v < 256, ∀ b < 2, (v &&& 0xFE) ||| b = 2 * (v / 2) + b := by decide

/-- The low-order bits of an embedded buffer are the embedded bit string,
followed by the untouched trailing values' own low bits. -/
theorem map_mod_embedBits {flat bits : List Nat} (hb : ∀ x ∈ bits, x ≤ 1)
    (hf : ∀ v ∈ flat, v < 256) (hlen : bits.length ≤ flat.length) :
    (embedBits flat bits).map (· % 2) = bits ++ (flat.drop bits.length).map (· % 2) := by
  induction bits generalizing flat with
  | nil => simp [embedBits]
  | cons b bits ih =>
    cases flat with
    | nil => simp at hlen
    | cons v flat =>
      have hv : v < 256 := hf v (List.mem_cons_self v flat)
      have hb1 : b < 2 := Nat.lt_succ_of_le (hb b (List.mem_cons_self b bits))
      simp only [embedBits, List.map_cons, List.length_cons, List.drop_succ_cons]
      rw [lsb_write_eq v hv b hb1]
      have hbit : (2 * (v / 2) + b) % 2 = b := by omega
      rw [hbit, ih (fun x hx => hb x (List.mem_cons_of_mem b hx))
        (fun x hx => hf x (List.mem_cons_of_mem v hx)) (by simpa using Nat.le_of_succ_le_succ hlen)]
      rfl

/-- Entry-level description of the embedding loop: entry `i` gets the `i`-th
bit written into its LSB while a bit remains, and is untouched from the
first index past the bit string on. -/
theorem embedBits_getElem? (flat bits : List Nat) (i : Nat) :
    (embedBits flat bits)[i]? =
      match flat[i]?, bits[i]? with
      | some v, some b => some ((v &&& 0xFE) ||| b)
      | some v, none => some v
      | none, _ => none := by
  induction flat generalizing bits i with
  | nil =>
    cases bits with
    | nil => simp [embedBits]
    | cons b bits => simp [embedBits]
  | cons v flat ih =>
    cases bits with
    | nil => cases h : (v :: flat)[i]? <;> simp [embedBits, h]
    | cons b bits =>
      cases i with
      | zero => simp [embedBits]
      | succ i => simpa [embedBits] using ih bits i

/-- Reading one code point off a validly encoded character recovers that
code point together with the number of continuation bytes of its form. -/
theorem utf8DecodeOne_encodeChar {c : Nat} (hc : ValidCP c) (tail : List Nat) :
    ∃ b more k, utf8EncodeChar c = b :: more ∧
      utf8DecodeOne (b :: (more ++ tail)) = some (c, k) ∧ (more ++ tail).drop k = tail := by
  obtain ⟨hlt, hsur⟩ := hc
  by_cases h1 : c < 0x80
  · refine ⟨c, [], 0, by rw [utf8EncodeChar, if_pos h1], ?_, rfl⟩
    dsimp only [List.nil_append, utf8DecodeOne]
    rw [if_pos h1]
  · by_cases h2 : c < 0x800
    · refine ⟨0xC0 + c / 64, [0x80 + c % 64], 1,
        by rw [utf8EncodeChar, if_neg h1, if_pos h2], ?_, rfl⟩
      have c4 : isCont (0x80 + c % 64) = true := by
        simp only [isCont, Bool.and_eq_true, decide_eq_true_eq]; omega
      dsimp only [List.cons_append, List.nil_append, utf8DecodeOne]
      rw [if_neg (by omega), if_neg (by omega), if_pos (by omega : 0xC0 + c / 64 < 0xE0),
        if_pos c4]
      simp only [show 0xC0 + c / 64 - 0xC0 = c / 64 from by omega,
        show 0x80 + c % 64 - 0x80 = c % 64 from by omega,
        show c / 64 * 64 + c % 64 = c from by omega]
    · by_cases h3 : c < 0x10000
      · refine ⟨0xE0 + c / 4096, [0x80 + c / 64 % 64, 0x80 + c % 64], 2,
          by rw [utf8EncodeChar, if_neg h1, if_neg h2, if_pos h3], ?_, rfl⟩
        have c5 : (isCont (0x80 + c / 64 % 64) && isCont (0x80 + c % 64) &&
            (decide (0xE0 + c / 4096 ≠ 0xE0) || decide (0xA0 ≤ 0x80 + c / 64 % 64)) &&
            (decide (0xE0 + c / 4096 ≠ 0xED) || decide (0x80 + c / 64 % 64 < 0xA0))) = true := by
          simp only [isCont, Bool.and_eq_true, Bool.or_eq_true, decide_eq_true_eq]
          omega
        dsimp only [List.cons_append, List.nil_append, utf8DecodeOne]
        rw [if_neg (by omega), if_neg (by omega), if_neg (by omega),
          if_pos (by omega : 0xE0 + c / 4096 < 0xF0), if_pos c5]
        simp only [show 0xE0 + c / 4096 - 0xE0 = c / 4096 from by omega,
          show 0x80 + c / 64 % 64 - 0x80 = c / 64 % 64 from by omega,
          show 0x80 + c % 64 - 0x80 = c % 64 from by omega,
          show c / 4096 * 4096 + c / 64 % 64 * 64 + c % 64 = c from by omega]
      · refine ⟨0xF0 + c / 262144, [0x80 + c / 4096 % 64, 0x80 + c / 64 % 64, 0x80 + c % 64], 3,
          by rw [utf8EncodeChar, if_neg h1, if_neg h2, if_neg h3], ?_, rfl⟩
        have c6 : (isCont (0x80 + c / 4096 % 64) && isCont (0x80 + c / 64 % 64) &&
            isCont (0x80 + c % 64) &&
            (decide (0xF0 + c / 262144 ≠ 0xF0) || decide (0x90 ≤ 0x80 + c / 4096 % 64)) &&
            (decide (0xF0 + c / 262144 ≠ 0xF4) || decide (0x80 + c / 4096 % 64 < 0x90))) = true := by
          simp only [isCont, Bool.and_eq_true, Bool.or_eq_true, decide_eq_true_eq]
          omega
        dsimp only [List.cons_append, List.nil_append, utf8DecodeOne]
        rw [if_neg (by omega), if_neg (by omega), if_neg (by omega), if_neg (by omega),
          if_pos (by omega : 0xF0 + c / 262144 < 0xF5), if_pos c6]
        simp only [show 0xF0 + c / 262144 - 0xF0 = c / 262144 from by omega,
          show 0x80 + c / 4096 % 64 - 0x80 = c / 4096 % 64 from by omega,
          show 0x80 + c / 64 % 64 - 0x80 = c / 64 % 64 from by omega,
          show 0x80 + c % 64 - 0x80 = c % 64 from by omega,
          show c / 262144 * 262144 + c / 4096 % 64 * 4096 + c / 64 % 64 * 64 + c % 64 = c from by
            omega]

/-- Decoding a validly encoded code point from the front of a byte stream
peels off exactly that code point. -/
theorem utf8Decode_encodeChar_append {c : Nat} (hc : ValidCP c) (tail : List Nat) :
    utf8Decode (utf8EncodeChar c ++ tail) = (utf8Decode tail).map (fun cs => c :: cs) := by
  obtain ⟨b, more, k, he, hone, hdrop⟩ := utf8DecodeOne_encodeChar hc tail
  rw [he, List.cons_append, utf8Decode.eq_def]
  dsimp only
  rw [hone]
  dsimp only
  rw [hdrop]

/-- Strict UTF-8 decoding inverts UTF-8 encoding on every string of valid
code points: the repository's `bytes.decode('utf-8')` recovers exactly what
`str.encode('utf-8')` produced. -/
theorem utf8Decode_utf8Encode {cs : List Nat} (h : ∀ c ∈ cs, ValidCP c) :
    utf8Decode (utf8Encode cs) = some cs := by
  induction cs with
  | nil =>
    show utf8Decode [] = some []
    rw [utf8Decode.eq_def]
  | cons c cs ih =>
    rw [utf8Encode, List.flatMap_cons, ← utf8Encode,
      utf8Decode_encodeChar_append (h c (List.mem_cons_self c cs)),
      ih fun x hx => h x (List.mem_cons_of_mem c hx)]
    rfl

/-- Extracting a slice of low-order bits from an embedded buffer returns
the corresponding slice of the embedded bit string. -/
theorem extractBits_embed {flat bits : List Nat} (hb : ∀ x ∈ bits, x ≤ 1)
    (hf : ∀ v ∈ flat, v < 256) (start len : Nat)
    (hsl : start + len ≤ bits.length) (hlen : bits.length ≤ flat.length) :
    extractBits (embedBits flat bits) start len = some ((bits.drop start).take len) := by
  rw [extractBits, if_pos (by rw [length_embedBits]; omega)]
  rw [List.map_take, List.map_drop, map_mod_embedBits hb hf hlen]
  rw [List.drop_append_of_le_length (by omega), List.take_append_of_le_length
    (by simp only [List.length_drop]; omega)]

/-- Master lemma for the decode path: running `decode` on a raster into
which `header ++ ciphertext` was embedded recovers the header fields,
passes the signature check, and either rejects on the 10,000,000-byte
ceiling or hands the extracted ciphertext to the unframing pipeline.  No
assumption is made about header bytes 66..74 (the delimiter field): the
decode path never reads them. -/
theorem decodeRaster_embed (c : Codec) {hdr ct flat key : List Nat}
    (hhdr : hdr.length = 74)
    (hsig : hdr.take 6 = SIGNATURE_BYTES)
    (hkey : (hdr.drop 10).take 32 = key)
    (hlen : le_unpack ((hdr.drop 58).take 8) = ct.length)
    (hbytes : ∀ b ∈ hdr ++ ct, b < 256)
    (hflat : ∀ v ∈ flat, v < 256)
    (hcap : 8 * (74 + ct.length) ≤ flat.length) :
    decodeRaster c (embedBits flat (bytesToBits (hdr ++ ct))) =
      Except.ok (if 10000000 < ct.length then none else unframe c key ct) := by
  have hbl : (bytesToBits (hdr ++ ct)).length = 8 * (74 + ct.length) := by
    rw [length_bytesToBits, List.length_append, hhdr]
  have hmem : ∀ x ∈ bytesToBits (hdr ++ ct), x ≤ 1 := bytesToBits_mem_le _
  have hhl : (bytesToBits hdr).length = 592 := by rw [length_bytesToBits, hhdr]
  have hctl : (bytesToBits ct).length = 8 * ct.length := length_bytesToBits ct
  have hsplit : bytesToBits (hdr ++ ct) = bytesToBits hdr ++ bytesToBits ct :=
    bytesToBits_append hdr ct
  have hhdrbytes : ∀ b ∈ hdr, b < 256 := fun b hb =>
    hbytes b (List.mem_append_left ct hb)
  have hctbytes : ∀ b ∈ ct, b < 256 := fun b hb =>
    hbytes b (List.mem_append_right hdr hb)
  have hex0 : extractBits (embedBits flat (bytesToBits (hdr ++ ct))) 0 (HEADER_SIZE * 8) =
      some (bytesToBits hdr) := by
    rw [HEADER_SIZE, show (74 : Nat) * 8 = 592 from rfl]
    rw [extractBits_embed hmem hflat 0 592 (by omega) (by omega)]
    rw [List.drop_zero, hsplit, List.take_append_of_le_length (by omega),
      show (592 : Nat) = (bytesToBits hdr).length from hhl.symm, List.take_length]
  have hhdrrt : bitsToBytes (bytesToBits hdr) = hdr := bitsToBytes_bytesToBits hhdrbytes
  rw [decodeRaster, hex0]
  dsimp only
  rw [hhdrrt, decodeInner, if_pos hsig, hkey, hlen]
  have hfl : (embedBits flat (bytesToBits (hdr ++ ct))).length = flat.length :=
    length_embedBits _ _
  rw [hfl]
  by_cases hceil : 10000000 < ct.length
  · rw [if_pos (Or.inr hceil), if_pos hceil]
  · have hnot : ¬ (ct.length > flat.length - HEADER_SIZE * 8 ∨ ct.length > 10000000) := by
      rw [HEADER_SIZE]; omega
    rw [if_neg hnot, if_neg hceil]
    have hex1 : extractBits (embedBits flat (bytesToBits (hdr ++ ct)))
        (HEADER_SIZE * 8) (ct.length * 8) = some (bytesToBits ct) := by
      rw [HEADER_SIZE, show (74 : Nat) * 8 = 592 from rfl]
      rw [extractBits_embed hmem hflat 592 (ct.length * 8) (by omega) (by omega)]
      rw [hsplit, List.drop_left' hhl, show ct.length * 8 = (bytesToBits ct).length from by
        rw [hctl]; ring, List.take_length]
    rw [hex1]
    dsimp only
    rw [bitsToBytes_bytesToBits hctbytes]

/-- Every byte of a fitted struct field is a byte value when the input
bytes are. -/
theorem fit_mem_lt {bs : List Nat} (h : ∀ b ∈ bs, b < 256) (n : Nat) :
    ∀ b ∈ fit n bs, b < 256 := by
  intro b hb
  rw [fit, List.mem_append] at hb
  rcases hb with hb | hb
  · exact h b (List.mem_of_mem_take hb)
  · rw [List.eq_of_mem_replicate hb]; omega

/-- Every byte of a packed header is a byte value when the key and salt
bytes are. -/
theorem packHeader_mem_lt {v : Nat} {k s : List Nat} {n : Nat}
    (hk : ∀ b ∈ k, b < 256) (hs : ∀ b ∈ s, b < 256) :
    ∀ b ∈ packHeader v k s n, b < 256 := by
  intro b hb
  rw [packHeader] at hb
  simp only [List.mem_append] at hb
  rcases hb with ((((hb | hb) | hb) | hb) | hb) | hb
  · rw [SIGNATURE_BYTES] at hb
    simp only [List.mem_cons, List.not_mem_nil, or_false] at hb
    rcases hb with h | h | h | h | h | h <;> omega
  · exact le_bytes_mem_lt 4 v b hb
  · exact fit_mem_lt hk 32 b hb
  · exact fit_mem_lt hs 16 b hb
  · exact le_bytes_mem_lt 8 n b hb
  · rw [DELIMITER] at hb
    simp only [List.mem_cons, List.not_mem_nil, or_false] at hb
    rcases hb with h | h | h | h | h | h | h | h <;> omega

/-- The fixed-offset slices of a header-shaped byte buffer, for an
arbitrary final field `d`: the reads decode performs depend only on the
offsets, not on what sits in the last field. -/
theorem header_slices (v : Nat) (k s d : List Nat) (n : Nat)
    (hk : k.length = 32) (hs : s.length = 16) :
    (SIGNATURE_BYTES ++ le_bytes 4 v ++ k ++ s ++ le_bytes 8 n ++ d).take 6 =
      SIGNATURE_BYTES ∧
    ((SIGNATURE_BYTES ++ le_bytes 4 v ++ k ++ s ++ le_bytes 8 n ++ d).drop 6).take 4 =
      le_bytes 4 v ∧
    ((SIGNATURE_BYTES ++ le_bytes 4 v ++ k ++ s ++ le_bytes 8 n ++ d).drop 10).take 32 = k ∧
    ((SIGNATURE_BYTES ++ le_bytes 4 v ++ k ++ s ++ le_bytes 8 n ++ d).drop 42).take 16 = s ∧
    ((SIGNATURE_BYTES ++ le_bytes 4 v ++ k ++ s ++ le_bytes 8 n ++ d).drop 58).take 8 =
      le_bytes 8 n ∧
    (SIGNATURE_BYTES ++ le_bytes 4 v ++ k ++ s ++ le_bytes 8 n ++ d).drop 66 = d := by
  have d6 : (SIGNATURE_BYTES ++ le_bytes 4 v ++ k ++ s ++ le_bytes 8 n ++ d).drop 6 =
      le_bytes 4 v ++ (k ++ (s ++ (le_bytes 8 n ++ d))) := by
    simp only [List.append_assoc]
    exact List.drop_left' rfl
  have d10 : (SIGNATURE_BYTES ++ le_bytes 4 v ++ k ++ s ++ le_bytes 8 n ++ d).drop 10 =
      k ++ (s ++ (le_bytes 8 n ++ d)) := by
    rw [show (10 : Nat) = 6 + 4 from rfl, ← List.drop_drop, d6]
    exact List.drop_left' (length_le_bytes 4 v)
  have d42 : (SIGNATURE_BYTES ++ le_bytes 4 v ++ k ++ s ++ le_bytes 8 n ++ d).drop 42 =
      s ++ (le_bytes 8 n ++ d) := by
    rw [show (42 : Nat) = 10 + 32 from rfl, ← List.drop_drop, d10]
    exact List.drop_left' hk
  have d58 : (SIGNATURE_BYTES ++ le_bytes 4 v ++ k ++ s ++ le_bytes 8 n ++ d).drop 58 =
      le_bytes 8 n ++ d := by
    rw [show (58 : Nat) = 42 + 16 from rfl, ← List.drop_drop, d42]
    exact List.drop_left' hs
  have d66 : (SIGNATURE_BYTES ++ le_bytes 4 v ++ k ++ s ++ le_bytes 8 n ++ d).drop 66 = d := by
    rw [show (66 : Nat) = 58 + 8 from rfl, ← List.drop_drop, d58]
    exact List.drop_left' (length_le_bytes 8 n)
  refine ⟨?_, ?_, ?_, ?_, ?_, d66⟩
  · simp only [List.append_assoc]
    exact List.take_left' rfl
  · rw [d6]; exact List.take_left' (length_le_bytes 4 v)
  · rw [d10]; exact List.take_left' hk
  · rw [d42]; exact List.take_left' hs
  · rw [d58]; exact List.take_left' (length_le_bytes 8 n)

/-- A packed header for valid-length key and salt is the header-shaped
buffer whose last field is the delimiter constant. -/
theorem packHeader_eq {k s : List Nat} (v n : Nat)
    (hk : k.length = 32) (hs : s.length = 16) :
    packHeader v k s n =
      SIGNATURE_BYTES ++ le_bytes 4 v ++ k ++ s ++ le_bytes 8 n ++ DELIMITER := by
  rw [packHeader, fit_of_length hk, fit_of_length hs]

/-- The fixed-offset slices of a packed header give back its six fields:
offsets 0..6 signature, 6..10 version, 10..42 key, 42..58 salt, 58..66
payload length, 66..74 delimiter, exactly as read back by decode lines
311-322. -/
theorem packHeader_slices (v : Nat) (k s : List Nat) (n : Nat)
    (hk : k.length = 32) (hs : s.length = 16) :
    (packHeader v k s n).take 6 = SIGNATURE_BYTES ∧
    ((packHeader v k s n).drop 6).take 4 = le_bytes 4 v ∧
    ((packHeader v k s n).drop 10).take 32 = k ∧
    ((packHeader v k s n).drop 42).take 16 = s ∧
    ((packHeader v k s n).drop 58).take 8 = le_bytes 8 n ∧
    (packHeader v k s n).drop 66 = DELIMITER := by
  rw [packHeader_eq v n hk hs]
  exact header_slices v k s DELIMITER n hk hs

/-- C7: header packing always produces exactly 74 bytes, laid out
little-endian at the fixed offsets 0..6 signature, 6..10 version, 10..42
key, 42..58 salt, 58..66 payload length, 66..74 delimiter, and unpacking a
packed header by those slices reproduces the version, 32-byte key, 16-byte
salt and payload length exactly, for all valid-length inputs. -/
theorem header_pack_unpack (v : Nat) (k s : List Nat) (n : Nat)
    (hk : k.length = 32) (hs : s.length = 16) (hv : v < 2 ^ 32) (hn : n < 2 ^ 64) :
    (packHeader v k s n).length = 74 ∧
    (packHeader v k s n).take 6 = SIGNATURE_BYTES ∧
    le_unpack (((packHeader v k s n).drop 6).take 4) = v ∧
    ((packHeader v k s n).drop 10).take 32 = k ∧
    ((packHeader v k s n).drop 42).take 16 = s ∧
    le_unpack (((packHeader v k s n).drop 58).take 8) = n ∧
    (packHeader v k s n).drop 66 = DELIMITER := by
  obtain ⟨h0, h1, h2, h3, h4, h5⟩ := packHeader_slices v k s n hk hs
  refine ⟨packHeader_length v k s n, h0, ?_, h2, h3, ?_, h5⟩
  · rw [h1]; exact le_unpack_le_bytes_of_lt (by exact_mod_cast hv)
  · rw [h4]; exact le_unpack_le_bytes_of_lt (by exact_mod_cast hn)

/-- Witness for C7 at a concrete header: version 7, a concrete 32-byte key
and 16-byte salt, payload length 300. -/
theorem header_pack_unpack_witness :
    (packHeader 7 (List.replicate 32 9) (List.replicate 16 4) 300).length = 74 ∧
    (packHeader 7 (List.replicate 32 9) (List.replicate 16 4) 300).take 6 = SIGNATURE_BYTES ∧
    le_unpack (((packHeader 7 (List.replicate 32 9) (List.replicate 16 4) 300).drop 6).take 4)
      = 7 ∧
    ((packHeader 7 (List.replicate 32 9) (List.replicate 16 4) 300).drop 10).take 32
      = List.replicate 32 9 ∧
    ((packHeader 7 (List.replicate 32 9) (List.replicate 16 4) 300).drop 42).take 16
      = List.replicate 16 4 ∧
    le_unpack (((packHeader 7 (List.replicate 32 9) (List.replicate 16 4) 300).drop 58).take 8)
      = 300 ∧
    (packHeader 7 (List.replicate 32 9) (List.replicate 16 4) 300).drop 66 = DELIMITER :=
  header_pack_unpack 7 (List.replicate 32 9) (List.replicate 16 4) 300
    (by decide) (by decide) (by norm_num) (by norm_num)

/-- Characterization of `encode`: it raises exactly when the framed payload
needs more bits than `width * height * 3`, and otherwise embeds the
serialized header-plus-ciphertext into the buffer. -/
theorem encodeRaster_char (c : Codec) (key salt : List Nat) (width height : Nat)
    (flatImg message link : List Nat) :
    encodeRaster c key salt width height flatImg message link =
      if width * height * 3 <
          8 * (74 + (c.encrypt key (c.compress (utf8Encode (fullMessage message link)))).length)
      then Except.error EncodeError.capacityExceeded
      else Except.ok (embedBits flatImg (bytesToBits
        (packHeader VERSION key salt
            (c.encrypt key (c.compress (utf8Encode (fullMessage message link)))).length ++
          c.encrypt key (c.compress (utf8Encode (fullMessage message link)))))) := by
  have hlen : (bytesToBits
      (packHeader VERSION key salt
          (c.encrypt key (c.compress (utf8Encode (fullMessage message link)))).length ++
        c.encrypt key (c.compress (utf8Encode (fullMessage message link))))).length =
      8 * (74 + (c.encrypt key (c.compress (utf8Encode (fullMessage message link)))).length) := by
    rw [length_bytesToBits, List.length_append, packHeader_length]
  unfold encodeRaster
  dsimp only
  rw [hlen]

/-- C2: `encode` raises its capacity error exactly when the framed payload
(74-byte header plus ciphertext) needs strictly more bits than
`width * height * 3`; a payload needing exactly that many bits succeeds.
The model mirrors the code's control flow: the check at celfie.py lines
229-232 raises before the pixel data is even read (lines 234-243), so on
the error branch no raster entry has been written. -/
theorem capacity_check_iff (c : Codec) (key salt : List Nat) (width height : Nat)
    (flatImg message link : List Nat) :
    (encodeRaster c key salt width height flatImg message link =
        Except.error EncodeError.capacityExceeded ↔
      width * height * 3 <
        8 * (74 + (c.encrypt key (c.compress (utf8Encode (fullMessage message link)))).length)) ∧
    (8 * (74 + (c.encrypt key (c.compress (utf8Encode (fullMessage message link)))).length) ≤
        width * height * 3 →
      encodeRaster c key salt width height flatImg message link =
        Except.ok (embedBits flatImg (bytesToBits
          (packHeader VERSION key salt
              (c.encrypt key (c.compress (utf8Encode (fullMessage message link)))).length ++
            c.encrypt key (c.compress (utf8Encode (fullMessage message link))))))) := by
  have hchar := encodeRaster_char c key salt width height flatImg message link
  refine ⟨?_, ?_⟩
  · by_cases h : width * height * 3 <
        8 * (74 + (c.encrypt key (c.compress (utf8Encode (fullMessage message link)))).length)
    · simp [hchar, h]
    · simp [hchar, h]
  · intro h
    rw [hchar, if_neg (by omega)]

/-- Witness for C2: with the executable codec, the "hi" message and a
34-byte toy ciphertext the framed payload is 108 bytes = 864 bits; a
12 x 24 raster (exactly 864 channel values) succeeds and a 1 x 1 raster
raises the capacity error. -/
theorem capacity_check_iff_witness :
    encodeRaster toyCodec (List.replicate 32 5) (List.replicate 16 6) 12 24
        (List.replicate 864 0) [104, 105] [] ≠
      Except.error EncodeError.capacityExceeded ∧
    encodeRaster toyCodec (List.replicate 32 5) (List.replicate 16 6) 1 1
        (List.replicate 3 0) [104, 105] [] =
      Except.error EncodeError.capacityExceeded := by
  constructor
  · intro h
    have := (capacity_check_iff toyCodec (List.replicate 32 5) (List.replicate 16 6) 12 24
      (List.replicate 864 0) [104, 105] []).1.mp h
    revert this
    decide
  · exact (capacity_check_iff toyCodec (List.replicate 32 5) (List.replicate 16 6) 1 1
      (List.replicate 3 0) [104, 105] []).1.mpr (by decide)

/-- C5: embedding touches only the least significant bit of the first
`8 * len(data)` channel values: the buffer keeps its length, every touched
entry keeps bits 1..7 (`b / 2 = v / 2`) and moves by at most one, and every
entry at an index at or past the embedded bit count is byte-identical. -/
theorem embed_lsb_only (data flatImg : List Nat) (hf : ∀ v ∈ flatImg, v < 256) :
    (embedBits flatImg (bytesToBits data)).length = flatImg.length ∧
    (∀ i v b, i < 8 * data.length → flatImg[i]? = some v →
      (embedBits flatImg (bytesToBits data))[i]? = some b →
      b / 2 = v / 2 ∧ (b = v ∨ b = v + 1 ∨ b + 1 = v)) ∧
    (∀ i, 8 * data.length ≤ i →
      (embedBits flatImg (bytesToBits data))[i]? = flatImg[i]?) := by
  have hbl : (bytesToBits data).length = 8 * data.length := length_bytesToBits data
  refine ⟨length_embedBits flatImg (bytesToBits data), ?_, ?_⟩
  · intro i v b hi hv hb
    have hibits : i < (bytesToBits data).length := by omega
    have hbit : (bytesToBits data)[i]? = some ((bytesToBits data)[i]) :=
      List.getElem?_eq_getElem hibits
    have hble : (bytesToBits data)[i] ≤ 1 :=
      bytesToBits_mem_le data _ (List.getElem_mem hibits)
    have hv256 : v < 256 := hf v (List.getElem?_mem hv)
    rw [embedBits_getElem? flatImg (bytesToBits data) i, hv, hbit] at hb
    dsimp only at hb
    have hb2 : (v &&& 0xFE) ||| (bytesToBits data)[i] = b := Option.some.inj hb
    rw [lsb_write_eq v hv256 ((bytesToBits data)[i]) (by omega)] at hb2
    omega
  · intro i hi
    have hnone : (bytesToBits data)[i]? = none := by
      rw [List.getElem?_eq_none]; omega
    rw [embedBits_getElem? flatImg (bytesToBits data) i, hnone]
    cases hfl : flatImg[i]? <;> dsimp only

/-- Witness for C5 at the byte 171 embedded into ten channel values 7:
length preserved and the ninth entry untouched. -/
theorem embed_lsb_only_witness :
    (embedBits (List.replicate 10 7) (bytesToBits [171])).length =
      (List.replicate 10 7).length ∧
    (embedBits (List.replicate 10 7) (bytesToBits [171]))[8]? =
      (List.replicate 10 7)[8]? :=
  ⟨(embed_lsb_only [171] (List.replicate 10 7) (by decide)).1,
    (embed_lsb_only [171] (List.replicate 10 7) (by decide)).2.2 8 (by decide)⟩

/-- C6: the hidden region is serialized bit-by-bit, most significant bit
first within each byte, one bit into the low-order bit of each consecutive
raster entry starting at index 0, and extraction is the exact inverse:
reassembling the low-order bits eight at a time returns the byte buffer. -/
theorem bit_serialization_msb_first (data flatImg : List Nat)
    (hdata : ∀ b ∈ data, b < 256) (hf : ∀ v ∈ flatImg, v < 256)
    (hcap : 8 * data.length ≤ flatImg.length) :
    bytesToBits data =
      data.flatMap (fun b => (List.range 8).map (fun k => b / 2 ^ (7 - k) % 2)) ∧
    (embedBits flatImg (bytesToBits data)).map (· % 2) =
      bytesToBits data ++ (flatImg.drop (8 * data.length)).map (· % 2) ∧
    bitsToBytes (((embedBits flatImg (bytesToBits data)).take (8 * data.length)).map (· % 2)) =
      data := by
  have hbl : (bytesToBits data).length = 8 * data.length := length_bytesToBits data
  have hmod : (embedBits flatImg (bytesToBits data)).map (· % 2) =
      bytesToBits data ++ (flatImg.drop (8 * data.length)).map (· % 2) := by
    rw [← hbl]
    exact map_mod_embedBits (bytesToBits_mem_le data) hf (by omega)
  refine ⟨?_, hmod, ?_⟩
  · have hfun : ∀ b : Nat,
        (List.range 8).map (fun k => b / 2 ^ (7 - k) % 2) = byteToBits b := by
      intro b
      rw [show List.range 8 = [0, 1, 2, 3, 4, 5, 6, 7] from rfl]
      simp only [List.map_cons, List.map_nil, byteToBits]
      norm_num
    rw [bytesToBits]
    congr 1
    funext b
    exact (hfun b).symm
  · rw [List.map_take, hmod, ← hbl, List.take_left' rfl]
    exact bitsToBytes_bytesToBits hdata

/-- Witness for C6 at the bytes 171, 5 embedded into twenty channel
values 7: reading the first sixteen low-order bits back gives the bytes. -/
theorem bit_serialization_msb_first_witness :
    bitsToBytes (((embedBits (List.replicate 20 7) (bytesToBits [171, 5])).take
      (8 * [171, 5].length)).map (· % 2)) = [171, 5] :=
  (bit_serialization_msb_first [171, 5] (List.replicate 20 7)
    (by decide) (by decide) (by decide)).2.2

/-- C4: after a valid signature, decode returns None whenever the declared
payload needs more bits than remain past the header or exceeds the
10,000,000-byte ceiling (the code's own check compares the byte count
against the remaining bit count, and the cases it thereby lets through are
stopped by the IndexError of the out-of-range bit read, caught by the
handler), and otherwise proceeds to extract `payload_length * 8` ciphertext
bits and unframe them. -/
theorem decode_length_validation (c : Codec) (flatImg : List Nat)
    (hflen : 592 ≤ flatImg.length)
    (hsig : (headerBytesOf flatImg).take 6 = SIGNATURE_BYTES) :
    (flatImg.length - 592 < payloadLenOf flatImg * 8 ∨ 10000000 < payloadLenOf flatImg →
      decodeRaster c flatImg = Except.ok none) ∧
    (payloadLenOf flatImg * 8 ≤ flatImg.length - 592 → payloadLenOf flatImg ≤ 10000000 →
      decodeRaster c flatImg = Except.ok (unframe c (keyOf flatImg)
        (bitsToBytes (((flatImg.drop 592).take (payloadLenOf flatImg * 8)).map (· % 2))))) := by
  have hpl : le_unpack (List.take 8 (List.drop 58 (headerBytesOf flatImg))) =
      payloadLenOf flatImg := rfl
  have hkey : List.take 32 (List.drop 10 (headerBytesOf flatImg)) = keyOf flatImg := rfl
  have hex0 : extractBits flatImg 0 (HEADER_SIZE * 8) =
      some ((flatImg.take 592).map (· % 2)) := by
    rw [extractBits, HEADER_SIZE, if_pos (by omega), List.drop_zero]
  have hstep : decodeRaster c flatImg =
      Except.ok (decodeInner c flatImg (headerBytesOf flatImg)) := by
    rw [decodeRaster, hex0]
    rfl
  have hhs : HEADER_SIZE = 74 := rfl
  have h592 : (74 : Nat) * 8 = 592 := rfl
  constructor
  · intro hbad
    rw [hstep, decodeInner, if_pos hsig]
    dsimp only
    rw [hpl, hkey, hhs, h592]
    by_cases hcode : payloadLenOf flatImg > flatImg.length - 592 ∨
        payloadLenOf flatImg > 10000000
    · rw [if_pos hcode]
    · rw [if_neg hcode, extractBits, if_neg (by omega)]
  · intro hfit hceil
    rw [hstep, decodeInner, if_pos hsig]
    dsimp only
    rw [hpl, hkey, hhs, h592]
    rw [if_neg (by omega), extractBits, if_pos (by omega)]

/-- Witness for C4: a 600-value raster carrying a header that declares a
20,000,000-byte payload is rejected by the ceiling and decode returns
None. -/
theorem decode_length_validation_witness :
    decodeRaster toyCodec (embedBits (List.replicate 600 0)
        (bytesToBits (packHeader 1 (List.replicate 32 0) (List.replicate 16 0) 20000000))) =
      Except.ok none :=
  (decode_length_validation toyCodec
    (embedBits (List.replicate 600 0)
      (bytesToBits (packHeader 1 (List.replicate 32 0) (List.replicate 16 0) 20000000)))
    (by decide) (by decide)).1 (by decide)

/-- C3 (code bug): on a raster buffer shorter than 592 channel values — a
10 x 10 RGB image yields only 300 — the header-bit read `flat_img[i]` at
celfie.py line 302 raises IndexError before the `try` block opens, so
`decode` propagates an exception for a content reason instead of returning
None as the spec (and decode's own docstring) promise. -/
theorem decode_short_raster_raises (c : Codec) :
    decodeRaster c (List.replicate 300 0) = Except.error DecodeError.indexError := by
  rw [decodeRaster, extractBits,
    if_neg (by rw [HEADER_SIZE, List.length_replicate]; omega)]

/-- C10: `verify_image` returns a boolean for every path — a missing file
(decode's FileNotFoundError) and a too-short buffer (decode's IndexError)
are both swallowed by its bare `except` — and it returns true exactly when
decode returns a message. -/
theorem verify_image_iff {Path : Type} (c : Codec) (fs : Path → Option (List Nat)) (p : Path) :
    (verify_image c fs p = true ↔ ∃ m, decodeFile c fs p = Except.ok (some m)) ∧
    (fs p = none → verify_image c fs p = false) := by
  constructor
  · unfold verify_image
    cases h : decodeFile c fs p with
    | error e => simp
    | ok m =>
      cases m with
      | none => simp
      | some msg => simp
  · intro h
    unfold verify_image decodeFile
    rw [h]

/-- Witness for C10: on an empty file system every path verifies to
false. -/
theorem verify_image_iff_witness :
    verify_image toyCodec (fun _ : Nat => (none : Option (List Nat))) 0 = false :=
  (verify_image_iff toyCodec (fun _ : Nat => (none : Option (List Nat))) 0).2 rfl

/-- Bytes of a replicated buffer are byte values when the repeated value
is. -/
theorem replicate_mem_lt {x : Nat} (hx : x < 256) (n : Nat) :
    ∀ b ∈ List.replicate n x, b < 256 := by
  intro b hb
  rw [List.eq_of_mem_replicate hb]
  exact hx

/-- Every byte of a header-shaped buffer is a byte value when its variable
fields are. -/
theorem header_mem_lt {v n : Nat} {k s d : List Nat}
    (hk : ∀ b ∈ k, b < 256) (hs : ∀ b ∈ s, b < 256) (hd : ∀ b ∈ d, b < 256) :
    ∀ b ∈ SIGNATURE_BYTES ++ le_bytes 4 v ++ k ++ s ++ le_bytes 8 n ++ d, b < 256 := by
  intro b hb
  simp only [List.mem_append] at hb
  rcases hb with ((((hb | hb) | hb) | hb) | hb) | hb
  · rw [SIGNATURE_BYTES] at hb
    simp only [List.mem_cons, List.not_mem_nil, or_false] at hb
    rcases hb with h | h | h | h | h | h <;> omega
  · exact le_bytes_mem_lt 4 v b hb
  · exact hk b hb
  · exact hs b hb
  · exact le_bytes_mem_lt 8 n b hb
  · exact hd b hb

/-- The full message is a valid code-point string when the message and
link are: the `"\nLINK:"` tag itself is plain ASCII. -/
theorem fullMessage_valid {message link : List Nat}
    (hm : ∀ x ∈ message, ValidCP x) (hl : ∀ x ∈ link, ValidCP x) :
    ∀ x ∈ fullMessage message link, ValidCP x := by
  intro x hx
  rw [fullMessage] at hx
  by_cases h : link = []
  · rw [if_pos h] at hx
    exact hm x hx
  · rw [if_neg h] at hx
    simp only [List.append_assoc, List.mem_append] at hx
    rcases hx with hx | hx | hx
    · exact hm x hx
    · rw [LINK_TAG] at hx
      simp only [List.mem_cons, List.not_mem_nil, or_false] at hx
      rcases hx with h | h | h | h | h | h <;> subst h <;> decide
    · exact hl x hx

/-- Core round-trip lemma shared by the encode/decode claims: when encode
succeeds, the ciphertext respects decode's 10,000,000-byte ceiling and the
external compression and encryption collaborators invert on the payload at
hand, decode recovers exactly the full message. -/
theorem roundtrip_core (c : Codec) (key salt : List Nat) (width height : Nat)
    (flatImg message link flatEnc : List Nat)
    (hkl : key.length = 32) (hkb : ∀ b ∈ key, b < 256)
    (hsl : salt.length = 16) (hsb : ∀ b ∈ salt, b < 256)
    (hfb : ∀ v ∈ flatImg, v < 256)
    (hdim : flatImg.length = width * height * 3)
    (hmsg : ∀ x ∈ message, ValidCP x) (hlink : ∀ x ∈ link, ValidCP x)
    (hctb : ∀ b ∈ c.encrypt key (c.compress (utf8Encode (fullMessage message link))), b < 256)
    (hceil :
      (c.encrypt key (c.compress (utf8Encode (fullMessage message link)))).length ≤ 10000000)
    (hdec : c.decrypt key (c.encrypt key (c.compress (utf8Encode (fullMessage message link)))) =
      some (c.compress (utf8Encode (fullMessage message link))))
    (hzip : c.decompress (c.compress (utf8Encode (fullMessage message link))) =
      some (utf8Encode (fullMessage message link)))
    (henc : encodeRaster c key salt width height flatImg message link = Except.ok flatEnc) :
    decodeRaster c flatEnc = Except.ok (some (fullMessage message link)) := by
  rw [encodeRaster_char] at henc
  by_cases hcap : width * height * 3 <
      8 * (74 + (c.encrypt key (c.compress (utf8Encode (fullMessage message link)))).length)
  · rw [if_pos hcap] at henc
    cases henc
  · rw [if_neg hcap] at henc
    obtain rfl : flatEnc = _ := (Except.ok.inj henc).symm
    obtain ⟨s0, s1, s2, s3, s4, s5⟩ := packHeader_slices VERSION key salt
      (c.encrypt key (c.compress (utf8Encode (fullMessage message link)))).length hkl hsl
    rw [decodeRaster_embed c (packHeader_length VERSION key salt _) s0 s2
      (by rw [s4]; exact le_unpack_le_bytes_of_lt (by norm_num; omega))
      (by
        intro b hb
        rcases List.mem_append.mp hb with hb | hb
        · exact packHeader_mem_lt hkb hsb b hb
        · exact hctb b hb)
      hfb (by omega)]
    rw [if_neg (by omega)]
    rw [unframe, hdec]
    dsimp only
    rw [hzip]
    dsimp only
    rw [utf8Decode_utf8Encode (fullMessage_valid hmsg hlink)]

/-- C1 (amended): for every plaintext and optional link, if the raster
holds the framed payload and the ciphertext is within decode's
10,000,000-byte sanity ceiling, decode of encode returns exactly the
message, with the `"\nLINK:"` convention applied when a link was
supplied.  Without the ceiling hypothesis the claim fails, see the
counterexample. -/
theorem roundtrip_within_ceiling (c : Codec) (key salt : List Nat) (width height : Nat)
    (flatImg message link flatEnc : List Nat)
    (hkl : key.length = 32) (hkb : ∀ b ∈ key, b < 256)
    (hsl : salt.length = 16) (hsb : ∀ b ∈ salt, b < 256)
    (hfb : ∀ v ∈ flatImg, v < 256)
    (hdim : flatImg.length = width * height * 3)
    (hmsg : ∀ x ∈ message, ValidCP x) (hlink : ∀ x ∈ link, ValidCP x)
    (hctb : ∀ b ∈ c.encrypt key (c.compress (utf8Encode (fullMessage message link))), b < 256)
    (hceil :
      (c.encrypt key (c.compress (utf8Encode (fullMessage message link)))).length ≤ 10000000)
    (hdec : c.decrypt key (c.encrypt key (c.compress (utf8Encode (fullMessage message link)))) =
      some (c.compress (utf8Encode (fullMessage message link))))
    (hzip : c.decompress (c.compress (utf8Encode (fullMessage message link))) =
      some (utf8Encode (fullMessage message link)))
    (henc : encodeRaster c key salt width height flatImg message link = Except.ok flatEnc) :
    decodeRaster c flatEnc = Except.ok (some (fullMessage message link)) :=
  roundtrip_core c key salt width height flatImg message link flatEnc hkl hkb hsl hsb hfb
    hdim hmsg hlink hctb hceil hdec hzip henc

/-- Witness for C1 at the message "hi" on a 30 x 10 raster with the
executable codec. -/
theorem roundtrip_within_ceiling_witness :
    decodeRaster toyCodec (embedBits (List.replicate 900 200) (bytesToBits
        (packHeader VERSION (List.replicate 32 5) (List.replicate 16 6)
            (toyCodec.encrypt (List.replicate 32 5)
              (toyCodec.compress (utf8Encode (fullMessage [104, 105] [])))).length ++
          toyCodec.encrypt (List.replicate 32 5)
            (toyCodec.compress (utf8Encode (fullMessage [104, 105] [])))))) =
      Except.ok (some (fullMessage [104, 105] [])) :=
  roundtrip_within_ceiling toyCodec (List.replicate 32 5) (List.replicate 16 6) 30 10
    (List.replicate 900 200) [104, 105] [] _
    (by decide) (by decide) (by decide) (by decide)
    (replicate_mem_lt (by decide) 900) (by simp) (by decide) (by decide)
    (by decide) (by decide) (by decide) (by decide)
    (by rw [encodeRaster_char, if_neg (by decide)])

/-- ASCII payloads are their own UTF-8 encoding; the letter A repeated. -/
theorem utf8Encode_replicate_65 (n : Nat) :
    utf8Encode (List.replicate n 65) = List.replicate n 65 := by
  induction n with
  | zero => rfl
  | succ n ih =>
    rw [List.replicate_succ, utf8Encode, List.flatMap_cons, ← utf8Encode, ih]
    rfl

/-- Counterexample to C1 as stated: a 10,000,001-byte ASCII message whose
toy ciphertext is 10,000,033 bytes fits exactly into a raster of
80,000,856 channel values (26666952 x 1 x 3), so encode succeeds, yet
decode rejects the declared length at its 10,000,000-byte ceiling and
returns None instead of the message. -/
theorem roundtrip_fails_beyond_ceiling :
    encodeRaster toyCodec (List.replicate 32 5) (List.replicate 16 6) 26666952 1
        (List.replicate 80000856 200) (List.replicate 10000001 65) [] =
      Except.ok (embedBits (List.replicate 80000856 200) (bytesToBits
        (packHeader VERSION (List.replicate 32 5) (List.replicate 16 6) 10000033 ++
          (List.replicate 32 5 ++ List.replicate 10000001 65)))) ∧
    decodeRaster toyCodec (embedBits (List.replicate 80000856 200) (bytesToBits
        (packHeader VERSION (List.replicate 32 5) (List.replicate 16 6) 10000033 ++
          (List.replicate 32 5 ++ List.replicate 10000001 65)))) =
      Except.ok (none : Option (List Nat)) := by
  have hct : toyCodec.encrypt (List.replicate 32 5)
      (toyCodec.compress (utf8Encode (fullMessage (List.replicate 10000001 65) []))) =
      List.replicate 32 5 ++ List.replicate 10000001 65 := by
    show toyEncrypt (List.replicate 32 5)
      (toyCompress (utf8Encode (fullMessage (List.replicate 10000001 65) []))) = _
    rw [show fullMessage (List.replicate 10000001 65) [] = List.replicate 10000001 65 from rfl,
      toyCompress, utf8Encode_replicate_65, toyEncrypt]
  have hlen2 : (List.replicate 32 (5 : Nat) ++ List.replicate 10000001 65).length
      = 10000033 := by
    rw [List.length_append, List.length_replicate, List.length_replicate]
  constructor
  · rw [encodeRaster_char, hct, hlen2]
    rw [if_neg (by norm_num)]
  · obtain ⟨s0, s1, s2, s3, s4, s5⟩ := packHeader_slices VERSION (List.replicate 32 5)
      (List.replicate 16 6) 10000033 (List.length_replicate 32 5) (List.length_replicate 16 6)
    rw [decodeRaster_embed toyCodec (packHeader_length VERSION _ _ _) s0 s2
      (by rw [s4, hlen2]; exact le_unpack_le_bytes_of_lt (by norm_num))
      (by
        intro b hb
        rcases List.mem_append.mp hb with hb | hb
        · exact packHeader_mem_lt (replicate_mem_lt (by omega) 32)
            (replicate_mem_lt (by omega) 16) b hb
        · rcases List.mem_append.mp hb with hb | hb
          · exact replicate_mem_lt (by omega) 32 b hb
          · exact replicate_mem_lt (by omega) 10000001 b hb)
      (replicate_mem_lt (by omega) 80000856)
      (by rw [hlen2, List.length_replicate])]
    rw [if_pos (by rw [hlen2]; norm_num)]

/-- C9: calling encode with an empty-string link behaves exactly like
calling encode with the default no-link argument (which in the source is
the empty string): the `if link:` test at celfie.py line 195 is false, no
`"\nLINK:"` suffix is appended, and decode of the result returns the bare
message. -/
theorem empty_link_is_no_link (c : Codec) (key salt : List Nat) (width height : Nat)
    (flatImg message flatEnc : List Nat)
    (hkl : key.length = 32) (hkb : ∀ b ∈ key, b < 256)
    (hsl : salt.length = 16) (hsb : ∀ b ∈ salt, b < 256)
    (hfb : ∀ v ∈ flatImg, v < 256)
    (hdim : flatImg.length = width * height * 3)
    (hmsg : ∀ x ∈ message, ValidCP x)
    (hctb : ∀ b ∈ c.encrypt key (c.compress (utf8Encode message)), b < 256)
    (hceil : (c.encrypt key (c.compress (utf8Encode message))).length ≤ 10000000)
    (hdec : c.decrypt key (c.encrypt key (c.compress (utf8Encode message))) =
      some (c.compress (utf8Encode message)))
    (hzip : c.decompress (c.compress (utf8Encode message)) = some (utf8Encode message))
    (henc : encodeRaster c key salt width height flatImg message [] = Except.ok flatEnc) :
    fullMessage message [] = message ∧
    decodeRaster c flatEnc = Except.ok (some message) := by
  have hfm : fullMessage message [] = message := by rw [fullMessage, if_pos rfl]
  refine ⟨hfm, ?_⟩
  have h := roundtrip_core c key salt width height flatImg message [] flatEnc hkl hkb hsl hsb
    hfb hdim hmsg (by intro x hx; cases hx) (by rw [hfm]; exact hctb)
    (by rw [hfm]; exact hceil) (by rw [hfm]; exact hdec) (by rw [hfm]; exact hzip) henc
  rwa [hfm] at h

/-- Witness for C9 at the one-character message "w" on an 8 x 37 raster
with the executable codec. -/
theorem empty_link_is_no_link_witness :
    fullMessage [119] [] = [119] ∧
    decodeRaster toyCodec (embedBits (List.replicate 888 9) (bytesToBits
        (packHeader VERSION (List.replicate 32 5) (List.replicate 16 6)
            (toyCodec.encrypt (List.replicate 32 5)
              (toyCodec.compress (utf8Encode (fullMessage [119] [])))).length ++
          toyCodec.encrypt (List.replicate 32 5)
            (toyCodec.compress (utf8Encode (fullMessage [119] [])))))) =
      Except.ok (some [119]) :=
  empty_link_is_no_link toyCodec (List.replicate 32 5) (List.replicate 16 6) 8 37
    (List.replicate 888 9) [119] _
    (by decide) (by decide) (by decide) (by decide)
    (replicate_mem_lt (by decide) 888) (by simp) (by decide) (by decide)
    (by decide) (by decide) (by decide)
    (by rw [encodeRaster_char, if_neg (by decide)])

/-- C8 (amended): decode never reads the delimiter field.  For a header
whose bytes 66..74 are any eight byte values `d` whatsoever — in
particular a delimiter different from the constant — decode proceeds
exactly as it would with the correct delimiter, handing the extracted
ciphertext to the unframing pipeline; nothing in the decode path compares
the field against the expected constant. -/
theorem decode_ignores_delimiter (c : Codec) (key salt d ct flatImg : List Nat)
    (hkl : key.length = 32) (hkb : ∀ b ∈ key, b < 256)
    (hsl : salt.length = 16) (hsb : ∀ b ∈ salt, b < 256)
    (hdl : d.length = 8) (hdb : ∀ b ∈ d, b < 256)
    (hcb : ∀ b ∈ ct, b < 256) (hceil : ct.length ≤ 10000000)
    (hflat : ∀ v ∈ flatImg, v < 256)
    (hcap : 8 * (74 + ct.length) ≤ flatImg.length) :
    (SIGNATURE_BYTES ++ le_bytes 4 VERSION ++ key ++ salt ++ le_bytes 8 ct.length ++ d).drop 66
      = d ∧
    decodeRaster c (embedBits flatImg (bytesToBits
      ((SIGNATURE_BYTES ++ le_bytes 4 VERSION ++ key ++ salt ++ le_bytes 8 ct.length ++ d) ++
        ct))) = Except.ok (unframe c key ct) := by
  obtain ⟨s0, s1, s2, s3, s4, s5⟩ := header_slices VERSION key salt d ct.length hkl hsl
  have hhdr : (SIGNATURE_BYTES ++ le_bytes 4 VERSION ++ key ++ salt ++
      le_bytes 8 ct.length ++ d).length = 74 := by
    simp only [List.length_append, length_le_bytes, hkl, hsl, hdl]
    rfl
  refine ⟨s5, ?_⟩
  rw [decodeRaster_embed c hhdr s0 s2
    (by rw [s4]; exact le_unpack_le_bytes_of_lt (by norm_num; omega))
    (by
      intro b hb
      rcases List.mem_append.mp hb with hb | hb
      · exact header_mem_lt hkb hsb hdb b hb
      · exact hcb b hb)
    hflat hcap]
  rw [if_neg (by omega)]

/-- Witness for C8: an all-7 delimiter field, the "hi" toy ciphertext and a
900-value raster; decode hands the ciphertext to unframing regardless of
the field. -/
theorem decode_ignores_delimiter_witness :
    (SIGNATURE_BYTES ++ le_bytes 4 VERSION ++ List.replicate 32 5 ++ List.replicate 16 6 ++
        le_bytes 8 (toyEncrypt (List.replicate 32 5) [104, 105]).length ++
      List.replicate 8 7).drop 66 = List.replicate 8 7 ∧
    decodeRaster toyCodec (embedBits (List.replicate 900 3) (bytesToBits
      ((SIGNATURE_BYTES ++ le_bytes 4 VERSION ++ List.replicate 32 5 ++ List.replicate 16 6 ++
          le_bytes 8 (toyEncrypt (List.replicate 32 5) [104, 105]).length ++
        List.replicate 8 7) ++ toyEncrypt (List.replicate 32 5) [104, 105]))) =
      Except.ok (unframe toyCodec (List.replicate 32 5)
        (toyEncrypt (List.replicate 32 5) [104, 105])) :=
  decode_ignores_delimiter toyCodec (List.replicate 32 5) (List.replicate 16 6)
    (List.replicate 8 7) (toyEncrypt (List.replicate 32 5) [104, 105])
    (List.replicate 900 3)
    (by decide) (by decide) (by decide) (by decide) (by decide) (by decide)
    (by decide) (by decide) (replicate_mem_lt (by decide) 900) (by decide)

/-- Counterexample to C8 as stated: this embedded header carries the
delimiter field 00 00 00 00 00 00 00 00, different from the expected
constant, yet decode returns the message "hi": no delimiter verification
happens. -/
theorem decode_ignores_delimiter_cex :
    (SIGNATURE_BYTES ++ le_bytes 4 VERSION ++ List.replicate 32 5 ++ List.replicate 16 6 ++
        le_bytes 8 34 ++ List.replicate 8 0).drop 66 ≠ DELIMITER ∧
    decodeRaster toyCodec (embedBits (List.replicate 900 3) (bytesToBits
      ((SIGNATURE_BYTES ++ le_bytes 4 VERSION ++ List.replicate 32 5 ++ List.replicate 16 6 ++
          le_bytes 8 34 ++ List.replicate 8 0) ++
        toyEncrypt (List.replicate 32 5) [104, 105]))) =
      Except.ok (some [104, 105]) := by
  constructor
  · decide
  · obtain ⟨s0, s1, s2, s3, s4, s5⟩ := header_slices VERSION (List.replicate 32 5)
      (List.replicate 16 6) (List.replicate 8 0) 34 (by decide) (by decide)
    have hctl : (toyEncrypt (List.replicate 32 5) [104, 105]).length = 34 := by decide
    rw [decodeRaster_embed toyCodec (by decide) s0 s2
      (by rw [s4, hctl]; decide)
      (by decide) (replicate_mem_lt (by decide) 900) (by rw [hctl]; simp)]
    rw [if_neg (by rw [hctl]; decide)]
    refine congrArg Except.ok ?_
    have hdec2 : toyCodec.decrypt (List.replicate 32 5)
        (toyEncrypt (List.replicate 32 5) [104, 105]) = some [104, 105] := by decide
    rw [unframe, hdec2]
    dsimp only
    rw [show toyCodec.decompress [104, 105] = some [104, 105] from rfl]
    dsimp only
    have hu : utf8Decode (utf8Encode [104, 105]) = some [104, 105] :=
      utf8Decode_utf8Encode (by decide)
    rwa [show utf8Encode [104, 105] = [104, 105] from rfl] at hu

end Celfie
